import Mathlib

/-
  Verification of the Aho-Corasick multi-pattern searcher wrapped by
  `src/src/lib.rs` (`AhoSearcher::new`, `AhoSearcher::search`).

  The Rust file is a thin wasm-bindgen layer: it deserializes a host value
  into `Vec<String>`, builds an `aho_corasick::AhoCorasick` automaton with
  `MatchKind::Standard`, and on `search` collects every match into
  `MatchResult { pattern_index, start, end }` records.  The automaton
  itself (trie construction, failure links, output sets, the matcher loop)
  lives in the external `aho_corasick` crate, whose sources are not part
  of this repository; those parts are modelled here from the
  specification's own algorithm (spec sections 3, 4.1-4.3, 6, 7).

  Bytes are modelled as `Nat`, byte strings as `List Nat`.
-/

namespace AhoWasm

/-- A pattern / byte string: an immutable sequence of symbols (bytes). -/
abbrev Pat := List Nat

/-- The match record returned to the host: `{pattern_index, start, end}`,
a half-open byte-offset range `[start, end)` into the haystack
(spec section 3, `MatchRecord`; `MatchResult` in `src/src/lib.rs`). -/
structure MatchResult where
  pattern_index : Nat
  start : Nat
  «end» : Nat
deriving DecidableEq, Repr

/-- Modelled from the spec: the trie built by the Trie Builder (spec 4.1)
is not in `src/` (it lives in the `aho_corasick` crate).  A state of the
trie is identified with the (unique) pattern prefix it spells, so
`isNode ps s` says that `s` is a state: the root (empty prefix) or a
prefix of some pattern of `ps`. -/
def isNode (ps : List Pat) (s : Pat) : Bool :=
  s.isEmpty || ps.any fun p => s.isPrefixOf p

/-- The longest suffix of `s` that is a trie state.  This is the semantic
value computed by the failure-chain walks of spec 4.2 (steps 2 and 4). -/
def maxNodeSuffix (ps : List Pat) : Pat → Pat
  | [] => []
  | c :: rest => if isNode ps (c :: rest) then c :: rest else maxNodeSuffix ps rest

/-- Modelled from the spec: the failure link of the Automaton Compiler
(spec 4.2 step 2, glossary "Failure link"): the deepest proper suffix of
`s` that is itself a trie state, the root if none.  The compiler itself is
code of the `aho_corasick` crate, absent from `src/`. -/
def fail (ps : List Pat) (s : Pat) : Pat :=
  maxNodeSuffix ps s.tail

theorem maxNodeSuffix_length_le (ps : List Pat) :
    ∀ t : Pat, (maxNodeSuffix ps t).length ≤ t.length := by
  intro t
  induction t with
  | nil => simp [maxNodeSuffix]
  | cons c rest ih =>
    simp only [maxNodeSuffix]
    split
    · exact Nat.le_refl _
    · exact Nat.le_trans ih (by simp)

theorem fail_length_lt (ps : List Pat) (s : Pat) (hs : s ≠ []) :
    (fail ps s).length < s.length := by
  have h1 : (maxNodeSuffix ps s.tail).length ≤ s.tail.length :=
    maxNodeSuffix_length_le ps s.tail
  have h2 : s.tail.length = s.length - 1 := by simp [List.length_tail]
  have h3 : 0 < s.length := List.length_pos.mpr hs
  simp only [fail]
  omega

theorem maxNodeSuffix_suffix (ps : List Pat) :
    ∀ t : Pat, maxNodeSuffix ps t <:+ t := by
  intro t
  induction t with
  | nil => simp [maxNodeSuffix]
  | cons c rest ih =>
    simp only [maxNodeSuffix]
    split
    · exact List.suffix_refl _
    · exact ih.trans (List.suffix_cons c rest)

theorem isNode_maxNodeSuffix (ps : List Pat) :
    ∀ t : Pat, isNode ps (maxNodeSuffix ps t) = true := by
  intro t
  induction t with
  | nil => simp [maxNodeSuffix, isNode]
  | cons c rest ih =>
    simp only [maxNodeSuffix]
    split
    · assumption
    · exact ih

theorem maxNodeSuffix_eq_of_isNode (ps : List Pat) (t : Pat)
    (h : isNode ps t = true) : maxNodeSuffix ps t = t := by
  cases t with
  | nil => rfl
  | cons c rest => simp [maxNodeSuffix, h]

/-- The trie is closed under taking prefixes of states. -/
theorem isNode_of_append_single (ps : List Pat) (u : Pat) (c : Nat)
    (h : isNode ps (u ++ [c]) = true) : isNode ps u = true := by
  simp only [isNode, Bool.or_eq_true, List.isEmpty_iff, List.any_eq_true] at h ⊢
  rcases h with h | ⟨p, hp, hpre⟩
  · exact absurd h (by simp)
  · refine Or.inr ⟨p, hp, ?_⟩
    rw [List.isPrefixOf_iff_prefix] at hpre ⊢
    exact (List.prefix_append u [c]).trans hpre

/-- Maximality: every trie-state suffix of `t` is a suffix of
`maxNodeSuffix ps t`. -/
theorem suffix_maxNodeSuffix (ps : List Pat) :
    ∀ t u : Pat, u <:+ t → isNode ps u = true → u <:+ maxNodeSuffix ps t := by
  intro t
  induction t with
  | nil =>
    intro u hu _
    simpa [maxNodeSuffix] using hu
  | cons c rest ih =>
    intro u hu hnode
    simp only [maxNodeSuffix]
    split
    · exact hu
    · rename_i hnot
      rcases List.suffix_cons_iff.mp hu with h | h
      · subst h; exact absurd hnode hnot
      · exact ih u h hnode

/-- For a trie state `u`, being a suffix of `t` and being a suffix of
`maxNodeSuffix ps t` are the same. -/
theorem suffix_maxNodeSuffix_iff (ps : List Pat) (t u : Pat)
    (hnode : isNode ps u = true) :
    (u <:+ maxNodeSuffix ps t) ↔ u <:+ t := by
  constructor
  · intro h; exact h.trans (maxNodeSuffix_suffix ps t)
  · intro h; exact suffix_maxNodeSuffix ps t u h hnode

/-- Key step lemma: extending the longest-state-suffix by one symbol and
re-normalising gives the longest-state-suffix of the extended word. -/
theorem maxNodeSuffix_append_single (ps : List Pat) :
    ∀ (t : Pat) (c : Nat),
      maxNodeSuffix ps (maxNodeSuffix ps t ++ [c]) = maxNodeSuffix ps (t ++ [c]) := by
  intro t
  induction t with
  | nil => intro c; rfl
  | cons a rest ih =>
    intro c
    by_cases hn : isNode ps (a :: rest) = true
    · rw [maxNodeSuffix_eq_of_isNode ps _ hn]
    · have hmax : maxNodeSuffix ps (a :: rest) = maxNodeSuffix ps rest := by
        simp [maxNodeSuffix, hn]
      have hn2 : ¬ isNode ps ((a :: rest) ++ [c]) = true := by
        intro hcon
        exact hn (isNode_of_append_single ps (a :: rest) c hcon)
      have hstep : maxNodeSuffix ps ((a :: rest) ++ [c]) = maxNodeSuffix ps (rest ++ [c]) := by
        simp only [List.cons_append, maxNodeSuffix]
        rw [if_neg (by simpa [List.cons_append] using hn2)]
        rfl
      rw [hmax, hstep, ih c]

/-- Modelled from the spec: the goto-completed total transition function of
the Automaton Compiler (spec 4.2 steps 1 and 4), absent from `src/`: an
explicit trie edge is taken when present, the root self-loops on missing
symbols, and otherwise the transition is taken from `fail s`, computed
transitively along the failure chain. -/
def goto (ps : List Pat) (s : Pat) (c : Nat) : Pat :=
  if isNode ps (s ++ [c]) then s ++ [c]
  else if hs : s = [] then []
  else goto ps (fail ps s) c
termination_by s.length
decreasing_by
  exact fail_length_lt ps s hs

/-- The pattern indices whose pattern terminates exactly at state `s`
(the terminal-pattern set recorded by the Trie Builder, spec 4.1); since
patterns are inserted in index order, the list is in increasing index
order. -/
def ownTerminals (ps : List Pat) (s : Pat) : List Nat :=
  (List.range ps.length).filter fun p => ps.getD p [] == s

/-- Modelled from the spec: the output set of a state (spec 4.2 step 3),
propagated along failure links: `output s = ownTerminals s ++ output (fail s)`.
The output-propagation code is part of the `aho_corasick` crate, absent
from `src/`. -/
def output (ps : List Pat) (s : Pat) : List Nat :=
  if hs : s = [] then ownTerminals ps []
  else ownTerminals ps s ++ output ps (fail ps s)
termination_by s.length
decreasing_by
  exact fail_length_lt ps s hs

/-- Structural (failure-chain-free) form of `output`: the own terminals of
every suffix of `s`, longest suffix first. -/
def outputD (ps : List Pat) : Pat → List Nat
  | [] => ownTerminals ps []
  | c :: rest => ownTerminals ps (c :: rest) ++ outputD ps rest

/-- The match records emitted on reaching state `s` after the symbol at
offset `e - 1` (spec 4.3): one record per output pattern, with
`start = e - length(pattern)` and `end = e`. -/
def emitAt (ps : List Pat) (s : Pat) (e : Nat) : List MatchResult :=
  (output ps s).map fun p => ⟨p, e - (ps.getD p []).length, e⟩

/-- Modelled from the spec: the matcher loop (spec 4.3), absent from
`src/` (it is `find_iter` of the `aho_corasick` crate): starting from
state `s` with `i` symbols already consumed, consume the remaining
haystack one symbol at a time, follow the total goto function, and emit
the output set of every state reached. -/
def matcherFrom (ps : List Pat) : Pat → Nat → List Nat → List MatchResult
  | _, _, [] => []
  | s, i, c :: rest =>
    let t := goto ps s c
    emitAt ps t (i + 1) ++ matcherFrom ps t (i + 1) rest

/-- Modelled from the spec: the search operation of `AhoSearcher::search`
(spec 4.3 and 6): run the matcher over the whole haystack from the root
state; the output of the root itself is emitted first (spec 4.1: an empty
pattern matches before any input). -/
def search (ps : List Pat) (hay : List Nat) : List MatchResult :=
  emitAt ps [] 0 ++ matcherFrom ps [] 0 hay

/-- Structural twin of `emitAt` used for computation. -/
def emitAtD (ps : List Pat) (s : Pat) (e : Nat) : List MatchResult :=
  (outputD ps s).map fun p => ⟨p, e - (ps.getD p []).length, e⟩

/-- Structural twin of `matcherFrom` used for computation: the transition
goes directly to the longest-state-suffix of the extended word. -/
def matcherFromD (ps : List Pat) : Pat → Nat → List Nat → List MatchResult
  | _, _, [] => []
  | s, i, c :: rest =>
    let t := maxNodeSuffix ps (s ++ [c])
    emitAtD ps t (i + 1) ++ matcherFromD ps t (i + 1) rest

/-- Structural twin of `search` used for computation. -/
def searchD (ps : List Pat) (hay : List Nat) : List MatchResult :=
  emitAtD ps [] 0 ++ matcherFromD ps [] 0 hay

/-- The goto-completed transition function computes exactly the longest
trie-state suffix of the extended word (spec 4.2 step 4). -/
theorem goto_eq_maxNodeSuffix (ps : List Pat) (s : Pat) (c : Nat) :
    goto ps s c = maxNodeSuffix ps (s ++ [c]) := by
  have H : ∀ n (s : Pat), s.length ≤ n → ∀ c,
      goto ps s c = maxNodeSuffix ps (s ++ [c]) := by
    intro n
    induction n with
    | zero =>
      intro s hs c
      have hnil : s = [] := by
        cases s with
        | nil => rfl
        | cons a t => simp at hs
      subst hnil
      rw [goto]
      by_cases hb : isNode ps ([] ++ [c]) = true
      · rw [if_pos hb, maxNodeSuffix_eq_of_isNode ps _ hb]
      · rw [if_neg hb]
        simp only [List.nil_append] at hb
        simp [maxNodeSuffix, hb]
    | succ n ih =>
      intro s hs c
      rw [goto]
      by_cases h1 : isNode ps (s ++ [c]) = true
      · rw [if_pos h1, maxNodeSuffix_eq_of_isNode ps _ h1]
      · rw [if_neg h1]
        by_cases h2 : s = []
        · subst h2
          simp only [List.nil_append] at h1 ⊢
          simp [maxNodeSuffix, h1]
        · rw [dif_neg h2]
          have hlt : (fail ps s).length < s.length := fail_length_lt ps s h2
          have hrec := ih (fail ps s) (by omega) c
          rw [hrec]
          obtain ⟨a, t, rfl⟩ : ∃ a t, s = a :: t := by
            cases s with
            | nil => exact absurd rfl h2
            | cons a t => exact ⟨a, t, rfl⟩
          have hstep : maxNodeSuffix ps ((a :: t) ++ [c]) = maxNodeSuffix ps (t ++ [c]) := by
            simp only [List.cons_append, maxNodeSuffix]
            rw [if_neg (by simpa [List.cons_append] using h1)]
            rfl
          rw [hstep]
          show maxNodeSuffix ps (maxNodeSuffix ps (a :: t).tail ++ [c]) = _
          simpa using maxNodeSuffix_append_single ps t c
  exact H s.length s (Nat.le_refl _) c

/-- `output` is insensitive to normalising its argument to the longest
trie-state suffix. -/
theorem outputD_maxNodeSuffix (ps : List Pat) :
    ∀ t : Pat, outputD ps (maxNodeSuffix ps t) = outputD ps t := by
  intro t
  induction t with
  | nil => rfl
  | cons a rest ih =>
    by_cases hn : isNode ps (a :: rest) = true
    · rw [maxNodeSuffix_eq_of_isNode ps _ hn]
    · have hown : ownTerminals ps (a :: rest) = [] := by
        simp only [ownTerminals, List.filter_eq_nil_iff]
        intro p hp
        simp only [beq_iff_eq]
        intro hEq
        apply hn
        have hplen : p < ps.length := List.mem_range.mp hp
        have hmem : ps.getD p [] ∈ ps := by
          rw [List.getD_eq_getElem ps [] hplen]
          exact List.getElem_mem hplen
        rw [hEq] at hmem
        simp only [isNode, Bool.or_eq_true, List.any_eq_true]
        exact Or.inr ⟨a :: rest, hmem, List.isPrefixOf_iff_prefix.mpr (List.prefix_refl _)⟩
      simp only [maxNodeSuffix]
      rw [if_neg hn, ih]
      simp [outputD, hown]

/-- The failure-chain recursion of the spec (4.2 step 3) and the
structural form agree. -/
theorem output_eq_outputD (ps : List Pat) (s : Pat) :
    output ps s = outputD ps s := by
  have H : ∀ n (s : Pat), s.length ≤ n → output ps s = outputD ps s := by
    intro n
    induction n with
    | zero =>
      intro s hs
      have hnil : s = [] := by
        cases s with
        | nil => rfl
        | cons a t => simp at hs
      subst hnil
      rw [output]
      rfl
    | succ n ih =>
      intro s hs
      by_cases h2 : s = []
      · subst h2; rw [output]; rfl
      · rw [output, dif_neg h2]
        have hlt : (fail ps s).length < s.length := fail_length_lt ps s h2
        rw [ih (fail ps s) (by omega)]
        obtain ⟨a, t, rfl⟩ : ∃ a t, s = a :: t := by
          cases s with
          | nil => exact absurd rfl h2
          | cons a t => exact ⟨a, t, rfl⟩
        show ownTerminals ps (a :: t) ++ outputD ps (maxNodeSuffix ps (a :: t).tail) = _
        rw [show (a :: t).tail = t from rfl, outputD_maxNodeSuffix ps t]
        rfl
  exact H s.length s (Nat.le_refl _)

theorem emitAt_eq_emitAtD (ps : List Pat) (s : Pat) (e : Nat) :
    emitAt ps s e = emitAtD ps s e := by
  simp [emitAt, emitAtD, output_eq_outputD]

theorem matcherFrom_eq_matcherFromD (ps : List Pat) :
    ∀ (rest : List Nat) (s : Pat) (i : Nat),
      matcherFrom ps s i rest = matcherFromD ps s i rest := by
  intro rest
  induction rest with
  | nil => intro s i; rfl
  | cons c rest ih =>
    intro s i
    simp only [matcherFrom, matcherFromD]
    rw [goto_eq_maxNodeSuffix, emitAt_eq_emitAtD, ih]

theorem search_eq_searchD (ps : List Pat) (hay : List Nat) :
    search ps hay = searchD ps hay := by
  simp only [search, searchD, emitAt_eq_emitAtD, matcherFrom_eq_matcherFromD]

theorem count_range (n p : Nat) :
    (List.range n).count p = if p < n then 1 else 0 := by
  induction n with
  | zero => simp
  | succ n ih =>
    rw [List.range_succ, List.count_append, ih]
    have hsing : List.count p [n] = if p = n then 1 else 0 := by
      by_cases h : p = n
      · subst h; simp
      · simp [List.count_cons, h, Ne.symm h]
    rw [hsing]
    by_cases h2 : p = n
    · subst h2
      rw [if_neg (Nat.lt_irrefl p), if_pos rfl, if_pos (Nat.lt_succ_self p)]
    · by_cases h1 : p < n
      · rw [if_pos h1, if_neg h2, if_pos (by omega)]
      · rw [if_neg h1, if_neg h2, if_neg (by omega)]

theorem count_filter_of_pos {α : Type} [DecidableEq α] (pred : α → Bool)
    (a : α) (l : List α) (h : pred a = true) :
    (l.filter pred).count a = l.count a :=
  List.count_filter h

/-- Each pattern index appears in a state's own-terminal list exactly when
its pattern equals the state, and then exactly once. -/
theorem count_ownTerminals (ps : List Pat) (s : Pat) (p : Nat) :
    (ownTerminals ps s).count p =
      if p < ps.length ∧ ps.getD p [] = s then 1 else 0 := by
  simp only [ownTerminals]
  by_cases hg : (ps.getD p [] == s) = true
  · rw [count_filter_of_pos (fun q => ps.getD q [] == s) p _ hg, count_range]
    have heq : ps.getD p [] = s := by simpa [beq_iff_eq] using hg
    by_cases h1 : p < ps.length
    · rw [if_pos h1, if_pos ⟨h1, heq⟩]
    · rw [if_neg h1, if_neg (fun hc => h1 hc.1)]
  · have hnm : p ∉ (List.range ps.length).filter fun q => ps.getD q [] == s := by
      intro hmem
      exact hg (List.mem_filter.mp hmem).2
    rw [List.count_eq_zero.mpr hnm]
    have hne : ¬ ps.getD p [] = s := by simpa [beq_iff_eq] using hg
    rw [if_neg (fun hc => hne hc.2)]

/-- A pattern index appears in the output set of state `s` exactly when
its pattern is a suffix of `s`, and then exactly once (spec 3, invariant
on `output`; spec 9, duplicates reported independently). -/
theorem count_outputD (ps : List Pat) :
    ∀ (s : Pat) (p : Nat),
      (outputD ps s).count p =
        if p < ps.length ∧ ps.getD p [] <:+ s then 1 else 0 := by
  intro s
  induction s with
  | nil =>
    intro p
    simp only [outputD]
    rw [count_ownTerminals]
    by_cases h1 : p < ps.length ∧ ps.getD p [] = []
    · rw [if_pos h1, if_pos ⟨h1.1, by rw [h1.2]⟩]
    · rw [if_neg h1, if_neg (fun hc => h1 ⟨hc.1, List.suffix_nil.mp hc.2⟩)]
  | cons a rest ih =>
    intro p
    simp only [outputD]
    rw [List.count_append, count_ownTerminals, ih]
    by_cases h1 : p < ps.length
    · by_cases h2 : ps.getD p [] = a :: rest
      · have h3 : ¬ ps.getD p [] <:+ rest := by
          intro hcon
          have := hcon.length_le
          rw [h2] at this
          simp at this
        have h4 : ps.getD p [] <:+ a :: rest := by rw [h2]
        rw [if_pos ⟨h1, h2⟩, if_neg (fun hc => h3 hc.2), if_pos ⟨h1, h4⟩]
      · have h5 : (ps.getD p [] <:+ a :: rest) ↔ ps.getD p [] <:+ rest := by
          rw [List.suffix_cons_iff]
          constructor
          · rintro (h | h)
            · exact absurd h h2
            · exact h
          · exact Or.inr
        rw [if_neg (fun hc => h2 hc.2)]
        by_cases h6 : ps.getD p [] <:+ rest
        · rw [if_pos ⟨h1, h6⟩, if_pos ⟨h1, h5.mpr h6⟩]
        · rw [if_neg (fun hc => h6 hc.2), if_neg (fun hc => h6 (h5.mp hc.2))]
    · rw [if_neg (fun hc => h1 hc.1), if_neg (fun hc => h1 hc.1),
        if_neg (fun hc => h1 hc.1)]

/-- A record appears in the emission block of state `s` at end offset `e`
exactly when its pattern is in the output set of `s` and its fields have
the emitted shape, and then exactly once. -/
theorem count_emitAtD (ps : List Pat) (s : Pat) (e : Nat) (r : MatchResult) :
    (emitAtD ps s e).count r =
      if r.«end» = e ∧ r.pattern_index < ps.length ∧
         ps.getD r.pattern_index [] <:+ s ∧
         r.start = e - (ps.getD r.pattern_index []).length
      then 1 else 0 := by
  simp only [emitAtD]
  rw [List.count_eq_countP, List.countP_map]
  by_cases hshape : r.«end» = e ∧ r.start = e - (ps.getD r.pattern_index []).length
  · have hpt : ∀ p : Nat,
        ((⟨p, e - (ps.getD p []).length, e⟩ : MatchResult) == r)
          = (p == r.pattern_index) := by
      intro p
      by_cases hp : p = r.pattern_index
      · rw [hp]
        have hmk : (⟨r.pattern_index, e - (ps.getD r.pattern_index []).length, e⟩ :
            MatchResult) = r := by
          obtain ⟨r1, r2, r3⟩ := r
          rw [MatchResult.mk.injEq]
          exact ⟨rfl, hshape.2.symm, hshape.1.symm⟩
        rw [hmk]
        rw [beq_self_eq_true, beq_self_eq_true]
      · have hmk : ¬ (⟨p, e - (ps.getD p []).length, e⟩ : MatchResult) = r := by
          intro hcon
          rw [MatchResult.mk.injEq] at hcon
          exact hp hcon.1
        rw [beq_eq_false_iff_ne.mpr hmk, beq_eq_false_iff_ne.mpr hp]
    rw [List.countP_congr (fun p _ => by
      rw [Function.comp_apply, hpt p])]
    rw [← List.count_eq_countP, count_outputD]
    by_cases hc : r.pattern_index < ps.length ∧ ps.getD r.pattern_index [] <:+ s
    · rw [if_pos hc, if_pos ⟨hshape.1, hc.1, hc.2, hshape.2⟩]
    · rw [if_neg hc, if_neg (fun hcon => hc ⟨hcon.2.1, hcon.2.2.1⟩)]
  · have hz : ∀ p ∈ outputD ps s,
        ¬ ((fun x => x == r) ∘ fun p => (⟨p, e - (ps.getD p []).length, e⟩ : MatchResult)) p = true := by
      intro p _
      rw [Function.comp_apply, beq_iff_eq]
      intro hcon
      apply hshape
      obtain ⟨r1, r2, r3⟩ := r
      rw [MatchResult.mk.injEq] at hcon
      obtain ⟨hc1, hc2, hc3⟩ := hcon
      subst hc1
      exact ⟨hc3.symm, hc2.symm⟩
    rw [List.countP_eq_zero.mpr hz]
    rw [if_neg (fun hcon => hshape ⟨hcon.1, hcon.2.2.2⟩)]

theorem ite_add_ite_eq {A B C : Prop} [Decidable A] [Decidable B] [Decidable C]
    (hAB : ¬ (A ∧ B)) (hC : C ↔ A ∨ B) :
    ((if A then 1 else 0) + (if B then 1 else 0) : Nat) = if C then 1 else 0 := by
  by_cases hA : A
  · rw [if_pos hA, if_neg (fun hB => hAB ⟨hA, hB⟩), if_pos (hC.mpr (Or.inl hA))]
  · rw [if_neg hA, Nat.zero_add]
    by_cases hB : B
    · rw [if_pos hB, if_pos (hC.mpr (Or.inr hB))]
    · rw [if_neg hB, if_neg (fun hc => (hC.mp hc).elim hA hB)]

theorem isNode_getD (ps : List Pat) (p : Nat) (hp : p < ps.length) :
    isNode ps (ps.getD p []) = true := by
  have hmem : ps.getD p [] ∈ ps := by
    rw [List.getD_eq_getElem ps [] hp]
    exact List.getElem_mem hp
  simp only [isNode, Bool.or_eq_true, List.any_eq_true]
  exact Or.inr ⟨ps.getD p [], hmem, List.isPrefixOf_iff_prefix.mpr (List.prefix_refl _)⟩

theorem take_append_cons (w : List Nat) (c : Nat) (rest : List Nat) :
    (w ++ c :: rest).take (w.length + 1) = w ++ [c] := by
  rw [List.append_cons]
  exact List.take_left' (by simp)

/-- The matcher started on the longest-state-suffix of a consumed part `w`
emits each record exactly once: a record is produced exactly when its
pattern is a suffix of the processed part of the haystack ending at its
`end` offset, with the correct `start`. -/
theorem count_matcherFromD (ps : List Pat) (r : MatchResult) :
    ∀ (rest w : List Nat),
      (matcherFromD ps (maxNodeSuffix ps w) w.length rest).count r =
        if w.length + 1 ≤ r.«end» ∧ r.«end» ≤ w.length + rest.length ∧
           r.pattern_index < ps.length ∧
           ps.getD r.pattern_index [] <:+ (w ++ rest).take r.«end» ∧
           r.start = r.«end» - (ps.getD r.pattern_index []).length
        then 1 else 0 := by
  intro rest
  induction rest with
  | nil =>
    intro w
    rw [show matcherFromD ps (maxNodeSuffix ps w) w.length [] = [] from rfl]
    rw [List.count_nil, if_neg]
    intro hcon
    obtain ⟨h1, h2, _⟩ := hcon
    simp only [List.length_nil] at h2
    omega
  | cons c rest ih =>
    intro w
    have hK : maxNodeSuffix ps (maxNodeSuffix ps w ++ [c]) = maxNodeSuffix ps (w ++ [c]) :=
      maxNodeSuffix_append_single ps w c
    rw [show matcherFromD ps (maxNodeSuffix ps w) w.length (c :: rest) =
        emitAtD ps (maxNodeSuffix ps (maxNodeSuffix ps w ++ [c])) (w.length + 1) ++
          matcherFromD ps (maxNodeSuffix ps (maxNodeSuffix ps w ++ [c])) (w.length + 1) rest
      from rfl]
    rw [hK, List.count_append, count_emitAtD]
    have hIH := ih (w ++ [c])
    rw [show (w ++ [c]).length = w.length + 1 by simp] at hIH
    rw [show (w ++ [c]) ++ rest = w ++ c :: rest by simp] at hIH
    rw [hIH]
    have htake : (w ++ c :: rest).take (w.length + 1) = w ++ [c] :=
      take_append_cons w c rest
    simp only [List.length_cons]
    refine ite_add_ite_eq ?_ ?_
    · rintro ⟨⟨he, _, _, _⟩, hge, _⟩
      omega
    · constructor
      · rintro ⟨h1, h2, h3, h4, h5⟩
        by_cases he : r.«end» = w.length + 1
        · left
          refine ⟨he, h3, ?_, by omega⟩
          rw [suffix_maxNodeSuffix_iff ps (w ++ [c]) _ (isNode_getD ps _ h3)]
          rw [he, htake] at h4
          exact h4
        · right
          exact ⟨by omega, by omega, h3, h4, h5⟩
      · rintro (⟨he, h3, h4, h5⟩ | ⟨h1, h2, h3, h4, h5⟩)
        · refine ⟨by omega, by omega, h3, ?_, by omega⟩
          rw [he, htake]
          exact (suffix_maxNodeSuffix_iff ps (w ++ [c]) _ (isNode_getD ps _ h3)).mp h4
        · exact ⟨by omega, by omega, h3, h4, h5⟩

/-- Search emits each record exactly once, exactly for patterns that are
suffixes of the haystack prefix ending at the record's `end` offset. -/
theorem count_searchD (ps : List Pat) (hay : List Nat) (r : MatchResult) :
    (searchD ps hay).count r =
      if r.«end» ≤ hay.length ∧ r.pattern_index < ps.length ∧
         ps.getD r.pattern_index [] <:+ hay.take r.«end» ∧
         r.start = r.«end» - (ps.getD r.pattern_index []).length
      then 1 else 0 := by
  have hm := count_matcherFromD ps r hay []
  simp only [maxNodeSuffix, List.length_nil, List.nil_append, Nat.zero_add] at hm
  rw [show searchD ps hay = emitAtD ps [] 0 ++ matcherFromD ps [] 0 hay from rfl]
  rw [List.count_append, count_emitAtD, hm]
  refine ite_add_ite_eq ?_ ?_
  · rintro ⟨⟨he, _, _, _⟩, hge, _⟩
    omega
  · constructor
    · rintro ⟨h1, h2, h3, h4⟩
      by_cases he : r.«end» = 0
      · left
        refine ⟨he, h2, ?_, by omega⟩
        rw [he] at h3
        simpa using h3
      · right
        exact ⟨by omega, h1, h2, h3, h4⟩
    · rintro (⟨he, h2, h3, h4⟩ | ⟨h0, h1, h2, h3, h4⟩)
      · refine ⟨by omega, h2, ?_, by omega⟩
        rw [he]
        simpa using h3
      · exact ⟨h1, h2, h3, h4⟩

/-- The spec-level occurrence predicate (spec 8, first bullet): record `r`
denotes a literal occurrence of pattern `r.pattern_index` in `hay` as a
contiguous byte subsequence at the half-open range `[r.start, r.end)`. -/
def occursB (ps : List Pat) (hay : List Nat) (r : MatchResult) : Bool :=
  decide (r.pattern_index < ps.length) && decide (r.«end» ≤ hay.length) &&
    (r.start + (ps.getD r.pattern_index []).length == r.«end») &&
    ((hay.drop r.start).take (ps.getD r.pattern_index []).length
      == ps.getD r.pattern_index [])

theorem occursB_iff (ps : List Pat) (hay : List Nat) (r : MatchResult) :
    occursB ps hay r = true ↔
      (r.«end» ≤ hay.length ∧ r.pattern_index < ps.length ∧
       ps.getD r.pattern_index [] <:+ hay.take r.«end» ∧
       r.start = r.«end» - (ps.getD r.pattern_index []).length) := by
  obtain ⟨p, st, e⟩ := r
  simp only [occursB, Bool.and_eq_true, decide_eq_true_eq, beq_iff_eq]
  constructor
  · rintro ⟨⟨⟨h1, h2⟩, h3⟩, h4⟩
    have hlen : (ps.getD p []).length ≤ e := by omega
    refine ⟨h2, h1, ?_, by omega⟩
    rw [List.suffix_iff_eq_drop]
    rw [List.length_take, Nat.min_eq_left h2, List.drop_take]
    have hst : e - (e - (ps.getD p []).length) = (ps.getD p []).length := by omega
    have hst2 : e - (ps.getD p []).length = st := by omega
    rw [hst, hst2, h4]
  · rintro ⟨h2, h1, h3, h4⟩
    have hlen : (ps.getD p []).length ≤ e := by
      have := h3.length_le
      rw [List.length_take, Nat.min_eq_left h2] at this
      exact this
    refine ⟨⟨⟨h1, h2⟩, by omega⟩, ?_⟩
    have hdrop := List.suffix_iff_eq_drop.mp h3
    rw [List.length_take, Nat.min_eq_left h2, List.drop_take] at hdrop
    have hst : e - (e - (ps.getD p []).length) = (ps.getD p []).length := by omega
    rw [hst] at hdrop
    rw [show st = e - (ps.getD p []).length from h4]
    exact hdrop.symm

/-- Helper form of the central exactly-once property, shared by several
claim theorems. -/
theorem count_search_eq (ps : List Pat) (hay : List Nat) (r : MatchResult) :
    (search ps hay).count r = if occursB ps hay r = true then 1 else 0 := by
  rw [search_eq_searchD, count_searchD]
  by_cases h : occursB ps hay r = true
  · have hc := (occursB_iff ps hay r).mp h
    rw [if_pos ⟨hc.1, hc.2.1, hc.2.2.1, hc.2.2.2⟩, if_pos h]
  · rw [if_neg (fun hc => h ((occursB_iff ps hay r).mpr hc)), if_neg h]

/-- Membership form of the exactly-once property. -/
theorem mem_search_iff (ps : List Pat) (hay : List Nat) (r : MatchResult) :
    r ∈ search ps hay ↔ occursB ps hay r = true := by
  rw [← List.count_pos_iff, count_search_eq]
  by_cases h : occursB ps hay r = true
  · rw [if_pos h]
    simp [h]
  · rw [if_neg h]
    simp [h]

theorem mem_emitAtD_end (ps : List Pat) (s : Pat) (e : Nat) (r : MatchResult)
    (h : r ∈ emitAtD ps s e) : r.«end» = e := by
  simp only [emitAtD, List.mem_map] at h
  obtain ⟨p, _, rfl⟩ := h
  rfl

theorem mem_matcherFromD_end (ps : List Pat) :
    ∀ (rest : List Nat) (s : Pat) (i : Nat) (r : MatchResult),
      r ∈ matcherFromD ps s i rest → i + 1 ≤ r.«end» := by
  intro rest
  induction rest with
  | nil =>
    intro s i r h
    simp [matcherFromD] at h
  | cons c rest ih =>
    intro s i r h
    rw [show matcherFromD ps s i (c :: rest) =
        emitAtD ps (maxNodeSuffix ps (s ++ [c])) (i + 1) ++
          matcherFromD ps (maxNodeSuffix ps (s ++ [c])) (i + 1) rest from rfl] at h
    rcases List.mem_append.mp h with h | h
    · have := mem_emitAtD_end ps _ _ r h
      omega
    · have := ih _ _ r h
      omega

theorem pairwise_emitAtD (ps : List Pat) (s : Pat) (e : Nat) :
    (emitAtD ps s e).Pairwise (fun a b => a.«end» ≤ b.«end») := by
  apply List.pairwise_of_forall_mem_list
  intro a ha b hb
  rw [mem_emitAtD_end ps s e a ha, mem_emitAtD_end ps s e b hb]

theorem pairwise_matcherFromD (ps : List Pat) :
    ∀ (rest : List Nat) (s : Pat) (i : Nat),
      (matcherFromD ps s i rest).Pairwise (fun a b => a.«end» ≤ b.«end») := by
  intro rest
  induction rest with
  | nil =>
    intro s i
    exact List.Pairwise.nil
  | cons c rest ih =>
    intro s i
    rw [show matcherFromD ps s i (c :: rest) =
        emitAtD ps (maxNodeSuffix ps (s ++ [c])) (i + 1) ++
          matcherFromD ps (maxNodeSuffix ps (s ++ [c])) (i + 1) rest from rfl]
    rw [List.pairwise_append]
    refine ⟨pairwise_emitAtD ps _ _, ih _ _, ?_⟩
    intro a ha b hb
    have h1 := mem_emitAtD_end ps _ _ a ha
    have h2 := mem_matcherFromD_end ps rest _ _ b hb
    omega

/-- Matches are produced in non-decreasing order of `end` offset. -/
theorem pairwise_searchD (ps : List Pat) (hay : List Nat) :
    (searchD ps hay).Pairwise (fun a b => a.«end» ≤ b.«end») := by
  rw [show searchD ps hay = emitAtD ps [] 0 ++ matcherFromD ps [] 0 hay from rfl]
  rw [List.pairwise_append]
  refine ⟨pairwise_emitAtD ps _ _, pairwise_matcherFromD ps hay [] 0, ?_⟩
  intro a ha b hb
  have h1 := mem_emitAtD_end ps _ _ a ha
  have h2 := mem_matcherFromD_end ps hay _ _ b hb
  omega

theorem filter_emitAtD_self (ps : List Pat) (s : Pat) (e : Nat) :
    (emitAtD ps s e).filter (fun r => r.«end» == e) = emitAtD ps s e :=
  List.filter_eq_self.mpr fun r hr =>
    beq_iff_eq.mpr (mem_emitAtD_end ps s e r hr)

theorem filter_emitAtD_ne (ps : List Pat) (s : Pat) (e e' : Nat) (h : e' ≠ e) :
    (emitAtD ps s e).filter (fun r => r.«end» == e') = [] :=
  List.filter_eq_nil_iff.mpr fun r hr hc =>
    h (by rw [← beq_iff_eq.mp hc, mem_emitAtD_end ps s e r hr])

/-- The block of matches with a given `end` offset is exactly the emission
block of the state reached at that offset. -/
theorem filter_matcherFromD (ps : List Pat) (e : Nat) :
    ∀ (rest w : List Nat),
      (matcherFromD ps (maxNodeSuffix ps w) w.length rest).filter
          (fun r => r.«end» == e) =
        if w.length + 1 ≤ e ∧ e ≤ w.length + rest.length
        then emitAtD ps (maxNodeSuffix ps ((w ++ rest).take e)) e
        else [] := by
  intro rest
  induction rest with
  | nil =>
    intro w
    rw [show matcherFromD ps (maxNodeSuffix ps w) w.length [] = [] from rfl]
    rw [if_neg (by rintro ⟨h1, h2⟩; simp only [List.length_nil] at h2; omega)]
    rfl
  | cons c rest ih =>
    intro w
    have hK : maxNodeSuffix ps (maxNodeSuffix ps w ++ [c]) = maxNodeSuffix ps (w ++ [c]) :=
      maxNodeSuffix_append_single ps w c
    rw [show matcherFromD ps (maxNodeSuffix ps w) w.length (c :: rest) =
        emitAtD ps (maxNodeSuffix ps (maxNodeSuffix ps w ++ [c])) (w.length + 1) ++
          matcherFromD ps (maxNodeSuffix ps (maxNodeSuffix ps w ++ [c])) (w.length + 1) rest
      from rfl]
    rw [hK, List.filter_append]
    have hIH := ih (w ++ [c])
    rw [show (w ++ [c]).length = w.length + 1 by simp] at hIH
    rw [show (w ++ [c]) ++ rest = w ++ c :: rest by simp] at hIH
    rw [hIH]
    have htake : (w ++ c :: rest).take (w.length + 1) = w ++ [c] :=
      take_append_cons w c rest
    simp only [List.length_cons]
    by_cases he : e = w.length + 1
    · subst he
      rw [filter_emitAtD_self, if_neg (by omega), if_pos (by omega),
        List.append_nil, htake]
    · rw [filter_emitAtD_ne ps _ _ _ he]
      rw [List.nil_append]
      by_cases hin : w.length + 1 + 1 ≤ e ∧ e ≤ w.length + 1 + rest.length
      · rw [if_pos hin, if_pos (by omega)]
      · rw [if_neg hin, if_neg (by omega)]

/-- The block of matches of `search` at a given `end` offset. -/
theorem filter_searchD (ps : List Pat) (hay : List Nat) (e : Nat) :
    (searchD ps hay).filter (fun r => r.«end» == e) =
      if e ≤ hay.length
      then emitAtD ps (maxNodeSuffix ps (hay.take e)) e
      else [] := by
  have hm := filter_matcherFromD ps e hay []
  simp only [maxNodeSuffix, List.length_nil, List.nil_append, Nat.zero_add] at hm
  rw [show searchD ps hay = emitAtD ps [] 0 ++ matcherFromD ps [] 0 hay from rfl]
  rw [List.filter_append, hm]
  by_cases he : e = 0
  · subst he
    rw [filter_emitAtD_self]
    rw [if_neg (by omega), if_pos (Nat.zero_le _)]
    rw [List.append_nil]
    rfl
  · rw [filter_emitAtD_ne ps _ _ _ he, List.nil_append]
    by_cases hin : e ≤ hay.length
    · rw [if_pos (by omega), if_pos hin]
    · rw [if_neg (by omega), if_neg hin]

theorem outputD_nil_pats : ∀ s : Pat, outputD [] s = [] := by
  intro s
  induction s with
  | nil => rfl
  | cons a rest ih => simp [outputD, ownTerminals, ih]

theorem matcherFromD_nil_pats :
    ∀ (rest : List Nat) (s : Pat) (i : Nat), matcherFromD [] s i rest = [] := by
  intro rest
  induction rest with
  | nil => intro s i; rfl
  | cons c rest ih =>
    intro s i
    rw [show matcherFromD [] s i (c :: rest) =
        emitAtD [] (maxNodeSuffix [] (s ++ [c])) (i + 1) ++
          matcherFromD [] (maxNodeSuffix [] (s ++ [c])) (i + 1) rest from rfl]
    rw [ih, show emitAtD [] (maxNodeSuffix [] (s ++ [c])) (i + 1) = [] by
      simp [emitAtD, outputD_nil_pats]]
    rfl

/-- With an empty pattern list, search returns no matches at all. -/
theorem search_nil_pats (hay : List Nat) : search [] hay = [] := by
  rw [search_eq_searchD]
  rw [show searchD [] hay = emitAtD [] [] 0 ++ matcherFromD [] [] 0 hay from rfl]
  rw [matcherFromD_nil_pats]
  simp [emitAtD, outputD_nil_pats]

theorem outputD_single_empty : ∀ s : Pat, outputD [[]] s = [0] := by
  intro s
  induction s with
  | nil => rfl
  | cons a rest ih =>
    have hown : ownTerminals [[]] (a :: rest) = [] := by
      simp [ownTerminals]
    simp [outputD, hown, ih]

theorem emitAtD_single_empty (s : Pat) (e : Nat) :
    emitAtD [[]] s e = [⟨0, e, e⟩] := by
  simp [emitAtD, outputD_single_empty]

theorem matcherFromD_single_empty :
    ∀ (rest : List Nat) (s : Pat) (i : Nat),
      matcherFromD [[]] s i rest =
        (List.range' (i + 1) rest.length).map fun j => (⟨0, j, j⟩ : MatchResult) := by
  intro rest
  induction rest with
  | nil => intro s i; rfl
  | cons c rest ih =>
    intro s i
    rw [show matcherFromD [[]] s i (c :: rest) =
        emitAtD [[]] (maxNodeSuffix [[]] (s ++ [c])) (i + 1) ++
          matcherFromD [[]] (maxNodeSuffix [[]] (s ++ [c])) (i + 1) rest from rfl]
    rw [emitAtD_single_empty, ih]
    rw [show (c :: rest).length = rest.length + 1 from rfl]
    rw [List.range'_succ (i + 1) rest.length 1, List.map_cons]
    rfl

/-- With the single empty pattern, search yields one match per offset. -/
theorem searchD_single_empty (hay : List Nat) :
    searchD [[]] hay =
      (List.range (hay.length + 1)).map fun j => (⟨0, j, j⟩ : MatchResult) := by
  rw [show searchD [[]] hay = emitAtD [[]] [] 0 ++ matcherFromD [[]] [] 0 hay from rfl]
  rw [emitAtD_single_empty, matcherFromD_single_empty]
  rw [List.range_eq_range', show hay.length + 1 = hay.length + 1 from rfl]
  rw [List.range'_succ 0 hay.length 1, List.map_cons]
  rfl

theorem map_getD_range :
    ∀ ps : List Pat, (List.range ps.length).map (fun p => ps.getD p []) = ps := by
  intro ps
  induction ps with
  | nil => rfl
  | cons a t ih =>
    rw [show (a :: t).length = t.length + 1 from rfl, List.range_succ_eq_map]
    rw [List.map_cons, List.map_map]
    have hcomp : ((fun p => (a :: t).getD p []) ∘ (· + 1)) = fun p => t.getD p [] := by
      funext p
      simp [List.getD_cons_succ]
    rw [hcomp, ih]
    rfl

/-- Membership in the output set of a state. -/
theorem mem_outputD (ps : List Pat) (s : Pat) (p : Nat) :
    p ∈ outputD ps s ↔ p < ps.length ∧ ps.getD p [] <:+ s := by
  rw [← List.count_pos_iff, count_outputD]
  by_cases h : p < ps.length ∧ ps.getD p [] <:+ s
  · rw [if_pos h]
    exact ⟨fun _ => h, fun _ => Nat.one_pos⟩
  · rw [if_neg h]
    exact ⟨fun hcon => absurd hcon (by omega), fun hc => absurd hc h⟩

/-- The number of whole-haystack matches equals the number of pattern-list
entries byte-identical to the haystack. -/
theorem countP_span_searchD (ps : List Pat) (hay : List Nat) :
    (searchD ps hay).countP
        (fun r => r.start == 0 && (r.«end» == hay.length)) = ps.count hay := by
  have h1 : ((searchD ps hay).filter (fun r => r.«end» == hay.length)).countP
      (fun r => r.start == 0) =
      (searchD ps hay).countP (fun r => r.start == 0 && (r.«end» == hay.length)) :=
    List.countP_filter _ _ _
  rw [← h1, filter_searchD, if_pos (Nat.le_refl _), List.take_length]
  have h2 : (emitAtD ps (maxNodeSuffix ps hay) hay.length).countP
      (fun r => r.start == 0) =
      (outputD ps (maxNodeSuffix ps hay)).countP
        (fun q => hay.length - (ps.getD q []).length == 0) := by
    rw [show emitAtD ps (maxNodeSuffix ps hay) hay.length =
        (outputD ps (maxNodeSuffix ps hay)).map
          (fun p => (⟨p, hay.length - (ps.getD p []).length, hay.length⟩ : MatchResult))
      from rfl]
    rw [List.countP_map]
    rfl
  rw [h2]
  have h3 : (outputD ps (maxNodeSuffix ps hay)).countP
      (fun q => hay.length - (ps.getD q []).length == 0) =
      (outputD ps (maxNodeSuffix ps hay)).countP (fun q => ps.getD q [] == hay) := by
    apply List.countP_congr
    intro q hq
    have hmem := (mem_outputD ps _ q).mp hq
    have hsfx : ps.getD q [] <:+ hay :=
      (hmem.2).trans (maxNodeSuffix_suffix ps hay)
    have hlen := hsfx.length_le
    rw [beq_iff_eq, beq_iff_eq]
    constructor
    · intro h0
      exact hsfx.eq_of_length (by omega)
    · intro heq
      rw [heq]
      omega
  rw [h3]
  have hperm : List.Perm (outputD ps (maxNodeSuffix ps hay))
      ((List.range ps.length).filter (fun q => (ps.getD q []).isSuffixOf hay)) := by
    rw [List.perm_iff_count]
    intro q
    rw [count_outputD]
    by_cases hq : ((ps.getD q []).isSuffixOf hay) = true
    · have hcf : ((List.range ps.length).filter
          (fun q => (ps.getD q []).isSuffixOf hay)).count q =
          (List.range ps.length).count q :=
        count_filter_of_pos _ q _ hq
      rw [hcf, count_range]
      have hs : ps.getD q [] <:+ hay := List.isSuffixOf_iff_suffix.mp hq
      by_cases hlt : q < ps.length
      · rw [if_pos ⟨hlt,
          (suffix_maxNodeSuffix_iff ps hay _ (isNode_getD ps q hlt)).mpr hs⟩, if_pos hlt]
      · rw [if_neg (fun hc => hlt hc.1), if_neg hlt]
    · have hnm : q ∉ (List.range ps.length).filter
          (fun q => (ps.getD q []).isSuffixOf hay) := by
        intro hmem
        exact hq (List.mem_filter.mp hmem).2
      rw [List.count_eq_zero.mpr hnm]
      have hns : ¬ ps.getD q [] <:+ hay :=
        fun hc => hq (List.isSuffixOf_iff_suffix.mpr hc)
      rw [if_neg (fun hc => hns (hc.2.trans (maxNodeSuffix_suffix ps hay)))]
  rw [hperm.countP_eq]
  have h5 : ((List.range ps.length).filter
        (fun q => (ps.getD q []).isSuffixOf hay)).countP
      (fun q => ps.getD q [] == hay) =
      (List.range ps.length).countP
        (fun q => (ps.getD q [] == hay) && ((ps.getD q []).isSuffixOf hay)) :=
    List.countP_filter _ _ _
  rw [h5]
  have h6 : (List.range ps.length).countP
      (fun q => (ps.getD q [] == hay) && ((ps.getD q []).isSuffixOf hay)) =
      (List.range ps.length).countP (fun q => ps.getD q [] == hay) := by
    apply List.countP_congr
    intro q _
    rw [Bool.and_eq_true]
    constructor
    · exact fun h => h.1
    · intro h
      refine ⟨h, ?_⟩
      rw [List.isSuffixOf_iff_suffix, beq_iff_eq.mp h]
  rw [h6]
  have h7 : (List.range ps.length).countP (fun q => ps.getD q [] == hay) =
      ((List.range ps.length).map (fun q => ps.getD q [])).countP
        (fun x => x == hay) := by
    rw [List.countP_map]
    rfl
  rw [h7, map_getD_range, ← List.count_eq_countP]

/-- Modelled from the spec: host boundary values (spec 6).  The
constructor argument of `AhoSearcher::new` is an arbitrary host value:
either an array of items or not, and each item either a string (a byte
sequence) or not.  The wasm-bindgen / serde-wasm-bindgen marshalling code
is external to `src/`. -/
inductive JsItem where
  | str : Pat → JsItem
  | nonStr : JsItem
deriving DecidableEq, Repr

/-- Modelled from the spec: the shape of the host value handed to the
constructor (spec 6). -/
inductive JsInput where
  | arr : List JsItem → JsInput
  | nonArr : JsInput
deriving DecidableEq, Repr

/-- Modelled from the spec: the error kinds of spec 7 that can reach the
host from this layer. -/
inductive HostError where
  | invalidPatternInput
  | resultEncodingFailure
deriving DecidableEq, Repr

/-- The opaque automaton handle returned by the constructor (`AhoSearcher`
in `src/src/lib.rs`): it owns the compiled pattern set. -/
structure AhoSearcher where
  patterns : List Pat
deriving DecidableEq, Repr

/-- Modelled from the spec: element-wise interpretation of the host array
as pattern strings (the `serde_wasm_bindgen::from_value` call inside
`AhoSearcher::new`, whose implementation is external to `src/`): it fails
on any non-string element and otherwise keeps all strings in order. -/
def toPatterns : List JsItem → Except HostError (List Pat)
  | [] => Except.ok []
  | JsItem.str s :: rest => (toPatterns rest).map fun l => s :: l
  | JsItem.nonStr :: _ => Except.error HostError.invalidPatternInput

/-- `AhoSearcher::new` (`src/src/lib.rs` lines 46-60): interpret the host
value as a string array and build the automaton from it; automaton
construction itself cannot fail in this model, so the only failure is
`invalidPatternInput`. -/
def new : JsInput → Except HostError AhoSearcher
  | JsInput.arr items => (toPatterns items).map fun l => ⟨l⟩
  | JsInput.nonArr => Except.error HostError.invalidPatternInput

/-- `AhoSearcher::search` (`src/src/lib.rs` lines 70-85) seen from the
host: collect the complete match list, then encode it.  Encoding a list
of plain numeric records cannot fail in this model, so the call always
returns `ok` with the complete list. -/
def hostSearch (a : AhoSearcher) (hay : List Nat) :
    Except HostError (List MatchResult) :=
  Except.ok (search a.patterns hay)

/-- One step of the search loop with the searcher value threaded through
the loop state (records so far, current state, position, searcher). -/
def stepThread (st : List MatchResult × Pat × Nat × AhoSearcher) (c : Nat) :
    List MatchResult × Pat × Nat × AhoSearcher :=
  let t := goto st.2.2.2.patterns st.2.1 c
  (st.1 ++ emitAt st.2.2.2.patterns t (st.2.2.1 + 1), t, st.2.2.1 + 1, st.2.2.2)

/-- The search loop as the Rust code runs it (`for mat in find_iter`),
returning both the records and the searcher value after the loop. -/
def searchThread (a : AhoSearcher) (hay : List Nat) :
    List MatchResult × AhoSearcher :=
  let fin := hay.foldl stepThread (emitAt a.patterns [] 0, ([] : Pat), 0, a)
  (fin.1, fin.2.2.2)

theorem foldl_stepThread_searcher :
    ∀ (hay : List Nat) (st : List MatchResult × Pat × Nat × AhoSearcher),
      (hay.foldl stepThread st).2.2.2 = st.2.2.2 := by
  intro hay
  induction hay with
  | nil => intro st; rfl
  | cons c rest ih =>
    intro st
    rw [List.foldl_cons, ih]
    rfl

theorem foldl_stepThread_records :
    ∀ (rest : List Nat) (recs : List MatchResult) (s : Pat) (i : Nat) (a : AhoSearcher),
      (rest.foldl stepThread (recs, s, i, a)).1 =
        recs ++ matcherFrom a.patterns s i rest := by
  intro rest
  induction rest with
  | nil =>
    intro recs s i a
    rw [show matcherFrom a.patterns s i [] = [] from rfl, List.append_nil]
    rfl
  | cons c rest ih =>
    intro recs s i a
    rw [List.foldl_cons]
    rw [show stepThread (recs, s, i, a) c =
        (recs ++ emitAt a.patterns (goto a.patterns s c) (i + 1),
          goto a.patterns s c, i + 1, a) from rfl]
    rw [ih]
    rw [show matcherFrom a.patterns s i (c :: rest) =
        emitAt a.patterns (goto a.patterns s c) (i + 1) ++
          matcherFrom a.patterns (goto a.patterns s c) (i + 1) rest from rfl]
    rw [List.append_assoc]

/-- The threaded loop computes `search` and hands the searcher back
untouched. -/
theorem searchThread_eq (a : AhoSearcher) (hay : List Nat) :
    searchThread a hay = (search a.patterns hay, a) := by
  rw [show searchThread a hay =
      ((hay.foldl stepThread (emitAt a.patterns [] 0, ([] : Pat), 0, a)).1,
        (hay.foldl stepThread (emitAt a.patterns [] 0, ([] : Pat), 0, a)).2.2.2)
    from rfl]
  rw [foldl_stepThread_records, foldl_stepThread_searcher]
  rfl

theorem toPatterns_ok (items : List JsItem) (l : List Pat)
    (h : toPatterns items = Except.ok l) : items = l.map JsItem.str := by
  induction items generalizing l with
  | nil =>
    rw [show toPatterns [] = Except.ok [] from rfl] at h
    cases h
    rfl
  | cons x rest ih =>
    cases x with
    | str s =>
      rw [show toPatterns (JsItem.str s :: rest) =
          (toPatterns rest).map (fun l => s :: l) from rfl] at h
      cases hrest : toPatterns rest with
      | ok l' =>
        rw [hrest] at h
        cases h
        rw [ih l' hrest]
        rfl
      | error e =>
        rw [hrest] at h
        cases h
    | nonStr =>
      rw [show toPatterns (JsItem.nonStr :: rest) =
          Except.error HostError.invalidPatternInput from rfl] at h
      cases h

theorem toPatterns_nonStr (items : List JsItem) (h : JsItem.nonStr ∈ items) :
    toPatterns items = Except.error HostError.invalidPatternInput := by
  induction items with
  | nil => cases h
  | cons x rest ih =>
    cases x with
    | str s =>
      have hmem : JsItem.nonStr ∈ rest := by
        rcases List.mem_cons.mp h with h1 | h1
        · cases h1
        · exact h1
      rw [show toPatterns (JsItem.str s :: rest) =
          (toPatterns rest).map (fun l => s :: l) from rfl]
      rw [ih hmem]
      rfl
    | nonStr => rfl

/-- C1: for every pattern list and haystack, the sequence returned by
search contains exactly one record for every literal occurrence of every
pattern in the haystack (as a contiguous byte subsequence, overlapping
and nested occurrences included) and nothing else: the multiplicity of a
record `{pattern_index, start, end}` is 1 exactly when it denotes such an
occurrence, and 0 otherwise. -/
theorem spec_C1 (ps : List Pat) (hay : List Nat) (r : MatchResult) :
    (search ps hay).count r = if occursB ps hay r = true then 1 else 0 :=
  count_search_eq ps hay r

/-- C2: with patterns ["he", "she", "his", "hers"] and haystack "ushers"
(as UTF-8 bytes), search yields exactly the records
{1, 1, 4} ("she"), {0, 2, 4} ("he"), {3, 2, 6} ("hers"), in that order. -/
theorem spec_C2 :
    search [[104, 101], [115, 104, 101], [104, 105, 115], [104, 101, 114, 115]]
        [117, 115, 104, 101, 114, 115] =
      [⟨1, 1, 4⟩, ⟨0, 2, 4⟩, ⟨3, 2, 6⟩] := by
  rw [search_eq_searchD]
  decide

/-- C3 counterexample: the pattern list ["a", "a"] contains a pattern
byte-identical to the haystack "a", yet search yields two whole-haystack
records (one per duplicate index), not exactly one. -/
theorem spec_C3_cex :
    [97] ∈ [[97], [97]] ∧
      ¬ ((search [[97], [97]] [97]).countP
          (fun r => r.start == 0 && (r.«end» == 1)) = 1) := by
  constructor
  · exact List.mem_cons_self _ _
  · rw [search_eq_searchD]
    decide

/-- C3 (amended): for every pattern list containing exactly one entry
byte-identical to the haystack, searching that haystack yields exactly
one record with start = 0 and end = byte length of the haystack. -/
theorem spec_C3 (ps : List Pat) (hay : List Nat) (h1 : ps.count hay = 1) :
    (search ps hay).countP
        (fun r => r.start == 0 && (r.«end» == hay.length)) = 1 := by
  rw [search_eq_searchD, countP_span_searchD, h1]

theorem spec_C3_witness :
    ([[97, 98]] : List Pat).count [97, 98] = 1 ∧
      (search [[97, 98]] [97, 98]).countP
          (fun r => r.start == 0 && (r.«end» == 2)) = 1 := by
  constructor
  · decide
  · exact spec_C3 [[97, 98]] [97, 98] (by decide)

/-- C4: the records returned by search are ordered by non-decreasing end
offset, and the records sharing one end offset `e` are exactly the
emission block of the state reached after `e` symbols — that is, they
appear in the order in which their pattern indices were inserted into
that state's output set during construction (own terminals in insertion
order, then the failure-chain output sets). -/
theorem spec_C4 (ps : List Pat) (hay : List Nat) :
    (search ps hay).Pairwise (fun a b => a.«end» ≤ b.«end») ∧
      ∀ e : Nat, (search ps hay).filter (fun r => r.«end» == e) =
        if e ≤ hay.length
        then emitAt ps (maxNodeSuffix ps (hay.take e)) e
        else [] := by
  constructor
  · rw [search_eq_searchD]
    exact pairwise_searchD ps hay
  · intro e
    rw [search_eq_searchD, filter_searchD, emitAt_eq_emitAtD]

/-- C5: with the single empty pattern [""], searching any non-empty
haystack of byte length L yields exactly the L+1 records ⟨0, i, i⟩ for
every offset i in 0..=L, in order. -/
theorem spec_C5 (hay : List Nat) (hne : hay ≠ []) :
    search [[]] hay =
      (List.range (hay.length + 1)).map fun j => (⟨0, j, j⟩ : MatchResult) := by
  rw [search_eq_searchD, searchD_single_empty]

theorem spec_C5_witness :
    ([7, 8, 9] : List Nat) ≠ [] ∧
      search [[]] [7, 8, 9] =
        (List.range 4).map fun j => (⟨0, j, j⟩ : MatchResult) := by
  constructor
  · decide
  · exact spec_C5 [7, 8, 9] (by decide)

/-- C6: constructing from an empty pattern array succeeds with an
automaton handle, and searching any haystack (the empty one included)
with it returns an empty record sequence. -/
theorem spec_C6 :
    new (JsInput.arr []) = Except.ok ⟨[]⟩ ∧
      ∀ hay : List Nat, hostSearch ⟨[]⟩ hay = Except.ok [] := by
  refine ⟨rfl, fun hay => ?_⟩
  rw [show hostSearch ⟨[]⟩ hay = Except.ok (search [] hay) from rfl,
    search_nil_pats]

/-- C7: a construction input that is not resolvable to a sequence of
strings (a non-array, or an array with a non-string element) yields the
invalid-pattern-input error and no automaton handle; and every returned
handle comes from a fully interpreted string array (never from partially
interpreted input). -/
theorem spec_C7 :
    (∀ items : List JsItem, JsItem.nonStr ∈ items →
        new (JsInput.arr items) = Except.error HostError.invalidPatternInput) ∧
      new JsInput.nonArr = Except.error HostError.invalidPatternInput ∧
      ∀ (inp : JsInput) (a : AhoSearcher), new inp = Except.ok a →
        inp = JsInput.arr (a.patterns.map JsItem.str) := by
  refine ⟨?_, rfl, ?_⟩
  · intro items h
    rw [show new (JsInput.arr items) = (toPatterns items).map (fun l => ⟨l⟩) from rfl,
      toPatterns_nonStr items h]
    rfl
  · intro inp a h
    cases inp with
    | nonArr => cases h
    | arr items =>
      rw [show new (JsInput.arr items) = (toPatterns items).map (fun l => ⟨l⟩) from rfl] at h
      cases hrest : toPatterns items with
      | ok l =>
        rw [hrest] at h
        cases h
        rw [toPatterns_ok items l hrest]
      | error e =>
        rw [hrest] at h
        cases h

theorem spec_C7_witness :
    JsItem.nonStr ∈ [JsItem.str [97], JsItem.nonStr] ∧
      new (JsInput.arr [JsItem.str [97], JsItem.nonStr]) =
        Except.error HostError.invalidPatternInput ∧
      new (JsInput.arr [JsItem.str [97]]) = Except.ok ⟨[[97]]⟩ ∧
      JsInput.arr [JsItem.str [97]] =
        JsInput.arr ((⟨[[97]]⟩ : AhoSearcher).patterns.map JsItem.str) := by
  refine ⟨by decide, spec_C7.1 _ (by decide), rfl, spec_C7.2.2 _ _ rfl⟩

/-- C8: search is all-or-nothing: every successful host search call
carries the complete match list of the entire haystack — each occurrence
exactly once, judged against the whole haystack — so no partial match
list is ever returned. -/
theorem spec_C8 (a : AhoSearcher) (hay : List Nat) (res : List MatchResult)
    (h : hostSearch a hay = Except.ok res) :
    ∀ r : MatchResult,
      res.count r = if occursB a.patterns hay r = true then 1 else 0 := by
  intro r
  have hres : res = search a.patterns hay := by
    rw [show hostSearch a hay = Except.ok (search a.patterns hay) from rfl] at h
    cases h
    rfl
  rw [hres]
  exact count_search_eq a.patterns hay r

theorem spec_C8_witness :
    hostSearch ⟨[[97]]⟩ [97] = Except.ok (search [[97]] [97]) ∧
      (search [[97]] [97]).count ⟨0, 0, 1⟩ =
        if occursB [[97]] [97] ⟨0, 0, 1⟩ = true then 1 else 0 :=
  ⟨rfl, spec_C8 ⟨[[97]]⟩ [97] (search [[97]] [97]) rfl ⟨0, 0, 1⟩⟩

/-- C9: search is deterministic and non-mutating: the search loop hands
the searcher value back unchanged, a second search on the returned
searcher produces an identical record sequence, and the records are the
pure function of the automaton's pattern list and the haystack. -/
theorem spec_C9 (a : AhoSearcher) (hay : List Nat) :
    (searchThread a hay).2 = a ∧
      (searchThread (searchThread a hay).2 hay).1 = (searchThread a hay).1 ∧
      (searchThread a hay).1 = search a.patterns hay := by
  simp [searchThread_eq]

/-- C10: every record returned by search is well-formed with respect to
its inputs: its pattern index is below the number of patterns, and
0 ≤ start ≤ end ≤ byte length of the haystack. -/
theorem spec_C10 (ps : List Pat) (hay : List Nat) (r : MatchResult)
    (h : r ∈ search ps hay) :
    r.pattern_index < ps.length ∧ r.start ≤ r.«end» ∧ r.«end» ≤ hay.length := by
  have hocc := (mem_search_iff ps hay r).mp h
  have hc := (occursB_iff ps hay r).mp hocc
  refine ⟨hc.2.1, ?_, hc.1⟩
  have := hc.2.2.2
  omega

theorem spec_C10_witness :
    (⟨0, 0, 1⟩ : MatchResult) ∈ search [[97]] [97] ∧
      ((⟨0, 0, 1⟩ : MatchResult).pattern_index < ([[97]] : List Pat).length ∧
        (⟨0, 0, 1⟩ : MatchResult).start ≤ (⟨0, 0, 1⟩ : MatchResult).«end» ∧
        (⟨0, 0, 1⟩ : MatchResult).«end» ≤ ([97] : List Nat).length) := by
  have hm : (⟨0, 0, 1⟩ : MatchResult) ∈ search [[97]] [97] := by
    rw [search_eq_searchD]
    decide
  exact ⟨hm, spec_C10 [[97]] [97] ⟨0, 0, 1⟩ hm⟩

end AhoWasm
